import Mathlib

/-!
Verification of the importance-weighting routine of `sbi`'s NPE_B trainer
(`sbi/inference/trainers/npe/npe_b.py`) and of the mixed Binomial/InverseGamma
likelihood potential (`tutorials/example_01_utils.py`).

Modelling conventions:
* Torch floating-point scalars are modelled by `FQ`: an exact rational together
  with the three non-finite float states (`+inf`, `-inf`, `nan`).  Arithmetic on
  `FQ` follows IEEE-754 conventions on the special values.
* `torch.exp` restricted to finite arguments is a strictly positive real
  function with no closed rational form; it is passed to the embedded routines
  as an explicit parameter `expF : ℚ → ℚ` (every theorem that needs it assumes
  only positivity, which holds for the real exponential).  On non-finite
  arguments `FQ.fexp` follows float semantics (`exp (-inf) = 0`, `exp inf = inf`,
  `exp nan = nan`).
* Probability distributions are modelled by their `log_prob` evaluation only,
  which is all the code reads from them.
* Python `assert`/`sbi.utils.assert_all_finite` failures are modelled by an
  `Except SbiError` result: `SbiError.numericalError msg` for the finiteness
  assertions (carrying the context message handed to `assert_all_finite`) and
  `SbiError.shapeError` for the bare shape assertions.
-/

/-- Float-like scalar: a finite rational or one of the IEEE special values. -/
inductive FQ where
  | fin : ℚ → FQ
  | pinf : FQ
  | ninf : FQ
  | nan : FQ
  deriving DecidableEq

namespace FQ

/-- Mirrors `torch.isfinite` on one scalar. -/
def isFinite : FQ → Bool
  | fin _ => true
  | _ => false

/-- The rational carried by a finite value (junk `0` on the non-finite states,
which every use guards against by a preceding finiteness assertion). -/
def toQ : FQ → ℚ
  | fin q => q
  | _ => 0

/-- IEEE-style addition on float-like scalars. -/
def add : FQ → FQ → FQ
  | fin a, fin b => fin (a + b)
  | fin _, pinf => pinf
  | fin _, ninf => ninf
  | fin _, nan => nan
  | pinf, fin _ => pinf
  | ninf, fin _ => ninf
  | nan, fin _ => nan
  | pinf, pinf => pinf
  | ninf, ninf => ninf
  | pinf, ninf => nan
  | ninf, pinf => nan
  | nan, _ => nan
  | _, nan => nan

/-- IEEE-style multiplication on float-like scalars. -/
def mul : FQ → FQ → FQ
  | fin a, fin b => fin (a * b)
  | fin a, pinf => if 0 < a then pinf else if a < 0 then ninf else nan
  | fin a, ninf => if 0 < a then ninf else if a < 0 then pinf else nan
  | pinf, fin b => if 0 < b then pinf else if b < 0 then ninf else nan
  | ninf, fin b => if 0 < b then ninf else if b < 0 then pinf else nan
  | pinf, pinf => pinf
  | ninf, ninf => pinf
  | pinf, ninf => ninf
  | ninf, pinf => ninf
  | nan, _ => nan
  | _, nan => nan

/-- IEEE-style division on float-like scalars; division of a nonzero finite
value by zero produces a signed infinity, `0 / 0` produces `nan`. -/
def div : FQ → FQ → FQ
  | fin a, fin b =>
    if b ≠ 0 then fin (a / b)
    else if 0 < a then pinf else if a < 0 then ninf else nan
  | fin _, pinf => fin 0
  | fin _, ninf => fin 0
  | pinf, fin b => if 0 ≤ b then pinf else ninf
  | ninf, fin b => if 0 ≤ b then ninf else pinf
  | pinf, pinf => nan
  | pinf, ninf => nan
  | ninf, pinf => nan
  | ninf, ninf => nan
  | nan, _ => nan
  | _, nan => nan

/-- Float exponential lifted to `FQ`; `expF` models the real exponential on
finite arguments. -/
def fexp (expF : ℚ → ℚ) : FQ → FQ
  | fin q => fin (expF q)
  | pinf => pinf
  | ninf => fin 0
  | nan => nan

end FQ

/-- Error taxonomy of the modelled excerpt: `numericalError` for the
finiteness assertions (with the context message), `shapeError` for the bare
shape assertions. -/
inductive SbiError where
  | numericalError : String → SbiError
  | shapeError : SbiError
  deriving DecidableEq

/-- Models `sbi.utils.assert_all_finite(t, msg)` applied to a 1-d tensor:
raises a numerical error carrying the context message unless every entry is
finite. -/
def assertAllFinite (vs : List FQ) (msg : String) : Except SbiError Unit :=
  if vs.all FQ.isFinite then .ok () else .error (.numericalError msg)

/-- A probability distribution as consumed by `_log_prob_proposal_posterior`:
only its `log_prob` evaluation at one parameter vector, which may be
non-finite. -/
structure LogDensity (Θ : Type) where
  log_prob : Θ → FQ

/-- The trainer state read by `NPE_B._log_prob_proposal_posterior`: the prior
(`self._prior`), the round counter (`self._round`), the proposal history
(`self._proposal_roundwise`) and the density estimator's conditional log
probability (`self._neural_net.log_prob`, evaluated per (theta, x) pair). -/
structure NPEBState (Θ X : Type) where
  prior : LogDensity Θ
  round : ℕ
  proposal_roundwise : List (LogDensity Θ)
  netLogProb : Θ → X → ℚ

namespace NPEBState

variable {Θ X : Type}

/-- Loop body of the proposal-mixture accumulation, for one `density` in
`self._proposal_roundwise`: assert finiteness of `density.log_prob(theta)` then
add `prop * exp(density.log_prob(theta))` elementwise to the accumulator. -/
def mixStep (expF : ℚ → ℚ) (prop : ℚ) (theta : List Θ) (acc : List FQ)
    (density : LogDensity Θ) : Except SbiError (List FQ) := do
  assertAllFinite (theta.map density.log_prob) "proposal eval"
  pure (List.zipWith FQ.add acc
    ((theta.map density.log_prob).map fun v => FQ.mul (.fin prop) (v.fexp expF)))

/-- The mixture-proposal accumulation of `_log_prob_proposal_posterior`:
`proposal = torch.zeros(theta.size(0))` followed by the loop over
`self._proposal_roundwise` with coefficient `prop = 1/(self._round + 1)`. -/
def proposalMixture (expF : ℚ → ℚ) (st : NPEBState Θ X) (theta : List Θ) :
    Except SbiError (List FQ) :=
  st.proposal_roundwise.foldlM
    (mixStep expF (1 / (st.round + 1)) theta)
    (theta.map fun _ => FQ.fin 0)

/-- Prior evaluation and importance-weight construction of
`_log_prob_proposal_posterior`: assert the prior log-probabilities finite,
exponentiate them, accumulate the proposal mixture, and divide elementwise. -/
def importanceWeights (expF : ℚ → ℚ) (st : NPEBState Θ X) (theta : List Θ) :
    Except SbiError (List FQ) := do
  assertAllFinite (theta.map st.prior.log_prob) "prior eval"
  let prior := (theta.map st.prior.log_prob).map (FQ.fexp expF)
  let proposal ← st.proposalMixture expF theta
  pure (List.zipWith FQ.div prior proposal)

/-- Shallow embedding of `NPE_B._log_prob_proposal_posterior(theta, x, masks,
proposal)`: the importance weights multiplied elementwise by the density
estimator's log-probability of each `theta` sample conditioned on the paired
`x` sample; no reduction is applied.  The `masks` and `proposal` arguments are
never read by the body and are therefore not modelled. -/
def logProbProposalPosterior (expF : ℚ → ℚ) (st : NPEBState Θ X)
    (theta : List Θ) (x : List X) : Except SbiError (List FQ) := do
  let ws ← st.importanceWeights expF theta
  pure (List.zipWith (fun w nlp => FQ.mul w (.fin nlp)) ws
    (List.zipWith st.netLogProb theta x))

/-- The exact mixture-proposal density at one parameter vector, as a rational:
`Σ_{d ∈ history} (1/(round+1)) * exp(d.log_prob t)`.  This is the value the
accumulation loop computes when every proposal log-probability is finite. -/
def mixtureDensity (expF : ℚ → ℚ) (st : NPEBState Θ X) (t : Θ) : ℚ :=
  (st.proposal_roundwise.map
    fun d => (1 / (st.round + 1 : ℚ)) * expF (d.log_prob t).toQ).sum

/-- Every log-density the routine asserts finite is in fact finite: the prior
at every sample and every history entry at every sample. -/
def allEvalsFinite (st : NPEBState Θ X) (theta : List Θ) : Prop :=
  (∀ t ∈ theta, (st.prior.log_prob t).isFinite) ∧
    ∀ d ∈ st.proposal_roundwise, ∀ t ∈ theta, (d.log_prob t).isFinite

end NPEBState

/-!
Tensor model for `tutorials/example_01_utils.py`.

A torch tensor is modelled by its shape together with an evaluation function on
multi-indices (row-major semantics for `reshape`).  The evaluation function is
total; its values outside the shape are junk and no theorem depends on them.
Elementwise binary operations broadcast shapes by torch's rule: shapes are
aligned from the trailing dimension, and a dimension of size 1 stretches to
match the other operand.  (Torch raises on non-broadcastable shape pairs; no
operation reached by the modelled code paths is non-broadcastable, so the
junk value returned in that case is never relied upon.)
-/

/-- A torch tensor: a shape and an evaluation function on multi-indices. -/
structure Tensor (α : Type) where
  shape : List ℕ
  eval : List ℕ → α

/-- Broadcast of two shapes, taken in reversed (trailing-first) order. -/
def bshapeR : List ℕ → List ℕ → List ℕ
  | [], t => t
  | s, [] => s
  | a :: s, b :: t => (if a = 1 then b else a) :: bshapeR s t

/-- Index into one broadcast operand: `sR` is the operand's reversed shape,
`idxR` the reversed result index; stretched dimensions read index 0. -/
def bidxR : List ℕ → List ℕ → List ℕ
  | [], _ => []
  | _ :: _, [] => []
  | a :: s, i :: idx => (if a = 1 then 0 else i) :: bidxR s idx

namespace Tensor

variable {α β γ : Type}

/-- Number of elements, `t.numel()`. -/
def numel (t : Tensor α) : ℕ := t.shape.prod

/-- Elementwise binary operation with torch broadcasting. -/
def zipWith (f : α → β → γ) (t : Tensor α) (u : Tensor β) : Tensor γ where
  shape := (bshapeR t.shape.reverse u.shape.reverse).reverse
  eval := fun idx =>
    f (t.eval (bidxR t.shape.reverse idx.reverse).reverse)
      (u.eval (bidxR u.shape.reverse idx.reverse).reverse)

/-- Elementwise unary operation (shape preserved). -/
def map (f : α → β) (t : Tensor α) : Tensor β where
  shape := t.shape
  eval := fun idx => f (t.eval idx)

/-- Row-major linear offset of a multi-index in a shape. -/
def toLin : List ℕ → List ℕ → ℕ
  | _ :: ds, i :: is => i * ds.prod + toLin ds is
  | _, _ => 0

/-- Multi-index of a row-major linear offset in a shape. -/
def fromLin : List ℕ → ℕ → List ℕ
  | [], _ => []
  | _ :: ds, n => n / ds.prod :: fromLin ds (n % ds.prod)

/-- Mirrors `t.reshape(s)` (row-major data order preserved). -/
def reshape (t : Tensor α) (s : List ℕ) : Tensor α where
  shape := s
  eval := fun idx => t.eval (fromLin t.shape (toLin s idx))

/-- Mirrors slicing the last dimension, `t[..., start : start + len]`. -/
def sliceLast (t : Tensor α) (start len : ℕ) : Tensor α where
  shape := t.shape.dropLast ++ [len]
  eval := fun idx => t.eval (idx.dropLast ++ [idx.getLastD 0 + start])

/-- Mirrors integer indexing of the last dimension, `t[..., k]` (the indexed
dimension disappears). -/
def selectLast (t : Tensor α) (k : ℕ) : Tensor α where
  shape := t.shape.dropLast
  eval := fun idx => t.eval (idx ++ [k])

/-- Mirrors `torch.stack(ts)` along a new leading dimension. -/
def stack [Inhabited α] (ts : List (Tensor α)) : Tensor α where
  shape := ts.length :: (ts.headD ⟨[], fun _ => default⟩).shape
  eval := fun idx =>
    match idx with
    | i :: rest => (ts.getD i ⟨[], fun _ => default⟩).eval rest
    | [] => default

/-- Swap entries `i` and `j` of a list (used for both shapes and indices). -/
def swapNth (l : List ℕ) (i j : ℕ) : List ℕ :=
  (l.set i (l.getD j 0)).set j (l.getD i 0)

/-- Mirrors `t.transpose(i, j)`. -/
def transpose (t : Tensor α) (i j : ℕ) : Tensor α where
  shape := swapNth t.shape i j
  eval := fun idx => t.eval (swapNth idx i j)

/-- Mirrors `torch.sum(t, dim=-1)` (also `t.sum(1)` on a rank-2 tensor):
float summation of the trailing dimension, accumulated left to right from 0. -/
def sumLast (t : Tensor FQ) : Tensor FQ where
  shape := t.shape.dropLast
  eval := fun idx =>
    ((List.range (t.shape.getLastD 0)).map fun i => t.eval (idx ++ [i])).foldl
      FQ.add (.fin 0)

/-- Index remapping for `squeeze`: rebuild a full index from an index over the
non-singleton dimensions. -/
def unsqueezeIdx : List ℕ → List ℕ → List ℕ
  | [], _ => []
  | d :: ds, idx =>
    if d = 1 then 0 :: unsqueezeIdx ds idx
    else
      match idx with
      | i :: rest => i :: unsqueezeIdx ds rest
      | [] => 0 :: unsqueezeIdx ds []

/-- Mirrors `t.squeeze()`: every dimension of size 1 is removed. -/
def squeeze (t : Tensor α) : Tensor α where
  shape := t.shape.filter fun d => d ≠ 1
  eval := fun idx => t.eval (unsqueezeIdx t.shape idx)

/-- Mirrors `torch.ones_like(t)`. -/
def onesLike (t : Tensor ℚ) : Tensor ℚ where
  shape := t.shape
  eval := fun _ => 1

/-- All valid multi-indices of a shape, row-major order. -/
def allIdx : List ℕ → List (List ℕ)
  | [] => [[]]
  | d :: ds => (List.range d).flatMap fun i => (allIdx ds).map (i :: ·)

/-- Mirrors `t.isfinite().all()`. -/
def allFinite (t : Tensor FQ) : Bool :=
  (allIdx t.shape).all fun idx => (t.eval idx).isFinite

end Tensor

instance : Inhabited FQ := ⟨.fin 0⟩

/-- The `concentration_scaling` argument of `BinomialGammaPotential.__init__`:
a float or a tensor. -/
inductive ConcScaling where
  | scalar : ℚ → ConcScaling
  | tensor : Tensor ℚ → ConcScaling

/-- State of a constructed `BinomialGammaPotential`: the prior's per-row log
density, the fixed observations `x_o`, the stored `concentration_scaling`, and
the pointwise log-densities of the two torch distribution primitives,
`Binomial(probs=p).log_prob(v)` and
`InverseGamma(concentration=c, rate=r).log_prob(x)` (transcendental functions,
modelled abstractly; they may return non-finite values). -/
structure BinomialGammaPotential where
  priorLP : List ℚ → FQ
  x_o : Tensor ℚ
  concentration_scaling : ConcScaling
  binomLP : ℚ → ℚ → FQ
  invGammaLP : ℚ → ℚ → ℚ → FQ

/-- Shallow embedding of `BinomialGammaPotential.__init__`: when
`concentration_scaling` is a tensor, assert `concentration_scaling.shape[0] ==
x_o.shape[0]` and store it reshaped by `reshape(1, num_trials, -1)` (the `-1`
resolves to `numel / num_trials`); a float is stored as is. -/
def mkBinomialGammaPotential (priorLP : List ℚ → FQ) (x_o : Tensor ℚ)
    (cs : ConcScaling) (binomLP : ℚ → ℚ → FQ) (invGammaLP : ℚ → ℚ → ℚ → FQ) :
    Except SbiError BinomialGammaPotential :=
  match cs with
  | .scalar c => .ok ⟨priorLP, x_o, .scalar c, binomLP, invGammaLP⟩
  | .tensor t =>
    let num_trials := x_o.shape.headD 0
    if t.shape.headD 0 = num_trials then
      .ok ⟨priorLP, x_o,
        .tensor (t.reshape [1, num_trials, t.numel / num_trials]),
        binomLP, invGammaLP⟩
    else .error .shapeError

namespace BinomialGammaPotential

/-- The reshape `theta.reshape(batch_size, 1, -1)` opening `iid_likelihood`
(the `-1` resolves to `numel / batch_size`). -/
def thetaR (theta : Tensor ℚ) : Tensor ℚ :=
  theta.reshape [theta.shape.headD 0, 1, theta.numel / theta.shape.headD 0]

/-- The `logprob_choices` tensor of `iid_likelihood`: for each binomial
component `k`, `Binomial(probs=rhos[:, :, k]).log_prob(x_o[:, 1 + k])`
(elementwise log-pmf under broadcasting of the probs batch shape against the
observed column), stacked over `k` and transposed to (batch, trial, k). -/
def choicesTerm (P : BinomialGammaPotential) (theta : Tensor ℚ) : Tensor FQ :=
  let th := thetaR theta
  let rhos := th.sliceLast 1 (th.shape.getLastD 0 - 1)
  ((Tensor.stack ((List.range (rhos.shape.getLastD 0)).map fun k =>
      Tensor.zipWith P.binomLP (rhos.selectLast k)
        (P.x_o.selectLast (1 + k)))).transpose 0 1).transpose 1 2

/-- The `logprob_rts` tensor of `iid_likelihood`:
`InverseGamma(concentration=concentration_scaling * ones_like(beta),
rate=beta).log_prob(x_o[:, :1].reshape(1, num_trials, -1))`, elementwise under
mutual broadcasting of concentration, rate and observed value (the `-1`
resolves to 1 since `x_o[:, :1]` has `num_trials` elements). -/
def invGammaTerm (P : BinomialGammaPotential) (theta : Tensor ℚ) : Tensor FQ :=
  let th := thetaR theta
  let beta := th.sliceLast 0 1
  let num_trials := P.x_o.shape.headD 0
  let conc : Tensor ℚ :=
    match P.concentration_scaling with
    | .scalar c => Tensor.map (fun v => c * v) (Tensor.onesLike beta)
    | .tensor t => Tensor.zipWith (· * ·) t (Tensor.onesLike beta)
  Tensor.zipWith (fun cr x => P.invGammaLP cr.1 cr.2 x)
    (Tensor.zipWith Prod.mk conc beta)
    ((P.x_o.sliceLast 0 1).reshape [1, num_trials, 1])

/-- The `joint_likelihood` tensor of `iid_likelihood`:
`torch.sum(logprob_choices, dim=-1) + logprob_rts.squeeze()` (broadcast
addition). -/
def jointLikelihood (P : BinomialGammaPotential) (theta : Tensor ℚ) :
    Tensor FQ :=
  Tensor.zipWith FQ.add (choicesTerm P theta).sumLast
    (invGammaTerm P theta).squeeze

/-- Shallow embedding of `BinomialGammaPotential.iid_likelihood`: compute the
joint per-(sample, trial) log-likelihood, assert its shape is
`(theta.shape[0], x_o.shape[0])`, assert all its entries finite, then sum
across trials (`joint_likelihood.sum(1)`, the trailing dimension of the
asserted rank-2 shape). -/
def iid_likelihood (P : BinomialGammaPotential) (theta : Tensor ℚ) :
    Except SbiError (Tensor FQ) :=
  if (jointLikelihood P theta).shape =
      [theta.shape.headD 0, P.x_o.shape.headD 0] then
    if (jointLikelihood P theta).allFinite then
      .ok (jointLikelihood P theta).sumLast
    else .error (.numericalError "Joint likelihood contains infs or nans")
  else .error .shapeError

/-- The prior's log-density evaluated on a batch of parameter rows,
`self.prior.log_prob(theta)`: a rank-1 tensor of per-sample values. -/
def priorLogProbT (P : BinomialGammaPotential) (th : Tensor ℚ) : Tensor FQ where
  shape := [th.shape.headD 0]
  eval := fun idx =>
    P.priorLP ((List.range (th.shape.getLastD 0)).map fun j =>
      th.eval [idx.headD 0, j])

/-- Mirrors `sbi.utils.torchutils.atleast_2d`: a tensor of rank below 2 gains
a leading batch dimension. -/
def atleast2d (t : Tensor ℚ) : Tensor ℚ :=
  if 2 ≤ t.shape.length then t else t.reshape [1, t.numel]

/-- Result of `BinomialGammaPotential.__call__`: the returned tensor together
with whether a gradient graph was retained for it.  The
`torch.set_grad_enabled(track_gradients)` scope only toggles graph retention;
it has no effect on the numbers computed, which the `gradGraphRetained` field
makes explicit. -/
structure CallResult where
  value : Except SbiError (Tensor FQ)
  gradGraphRetained : Bool

/-- Shallow embedding of `BinomialGammaPotential.__call__(theta,
track_gradients)`: `atleast_2d`, the iid likelihood evaluated inside the
`set_grad_enabled(track_gradients)` scope, plus the prior log-density. -/
def call (P : BinomialGammaPotential) (theta : Tensor ℚ)
    (track_gradients : Bool) : CallResult where
  value :=
    (iid_likelihood P (atleast2d theta)).map fun l =>
      Tensor.zipWith FQ.add l (priorLogProbT P (atleast2d theta))
  gradGraphRetained := track_gradients

/-- The concentration parameter effective at trial `t`: the scalar when
`concentration_scaling` is a float, or entry `[0, t, 0]` of the stored
`(1, num_trials, 1)` tensor. -/
def concAt (P : BinomialGammaPotential) (t : ℕ) : ℚ :=
  match P.concentration_scaling with
  | .scalar c => c
  | .tensor u => u.eval [0, t, 0]

end BinomialGammaPotential

/-!
Concrete instances used by counterexamples and witnesses.
-/

/-- A proposal/prior whose log-density is the finite constant 0. -/
def dFin0 : LogDensity Unit := ⟨fun _ => .fin 0⟩

/-- A proposal whose log-density is the finite constant 2. -/
def dFin2 : LogDensity Unit := ⟨fun _ => .fin 2⟩

/-- A distribution whose log-density evaluates to `nan`. -/
def dNan : LogDensity Unit := ⟨fun _ => .nan⟩

/-- A concrete stand-in for `torch.exp`: the constant-1 positive function. -/
def expOne : ℚ → ℚ := fun _ => 1

/-- Round-0 trainer state whose proposal history holds exactly the prior. -/
def stRound0 : NPEBState Unit Unit := ⟨dFin0, 0, [dFin0], fun _ _ => 5⟩

/-- Round-0 trainer state with an empty proposal history. -/
def stEmptyHist : NPEBState Unit Unit := ⟨dFin0, 0, [], fun _ _ => 1⟩

/-- Trainer state whose prior log-density evaluates to `nan`. -/
def stBadPrior : NPEBState Unit Unit := ⟨dNan, 0, [dFin0], fun _ _ => 1⟩

/-- Trainer state with a finite prior but a `nan`-valued proposal. -/
def stBadProp : NPEBState Unit Unit := ⟨dFin0, 0, [dNan], fun _ _ => 1⟩

/-- Round-1 trainer state with a two-entry proposal history. -/
def stTwoProps : NPEBState Unit Unit := ⟨dFin0, 1, [dFin0, dFin2], fun _ _ => 1⟩

/-- `stTwoProps` with the proposal history reversed. -/
def stTwoPropsSwap : NPEBState Unit Unit := ⟨dFin0, 1, [dFin2, dFin0], fun _ _ => 1⟩

/-- A finite-everywhere binomial log-pmf stand-in. -/
def binomFin : ℚ → ℚ → FQ := fun p v => .fin (p + v)

/-- A finite-everywhere inverse-gamma log-density stand-in. -/
def igFin : ℚ → ℚ → ℚ → FQ := fun a r x => .fin (a + r + x)

/-- A 2-trial, 2-column observed dataset. -/
def xo22 : Tensor ℚ := ⟨[2, 2], fun idx => (idx.sum : ℚ)⟩

/-- A single-trial, 2-column observed dataset. -/
def xo12 : Tensor ℚ := ⟨[1, 2], fun idx => (idx.sum : ℚ)⟩

/-- A batch of two 2-dimensional parameter vectors. -/
def thetaB2 : Tensor ℚ := ⟨[2, 2], fun idx => (idx.sum : ℚ) / 4⟩

/-- Potential over the 2-trial dataset with finite primitives. -/
def PW6 : BinomialGammaPotential := ⟨fun _ => .fin 0, xo22, .scalar 1, binomFin, igFin⟩

/-- Potential over the single-trial dataset with finite primitives. -/
def PW10 : BinomialGammaPotential := ⟨fun _ => .fin 0, xo12, .scalar 1, binomFin, igFin⟩

/-- Potential whose binomial primitive returns `nan` everywhere. -/
def PW8 : BinomialGammaPotential :=
  ⟨fun _ => .fin 0, xo22, .scalar 1, fun _ _ => FQ.nan, igFin⟩

/-- A length-2 per-trial concentration-scaling tensor. -/
def tt2 : Tensor ℚ := ⟨[2], fun idx => (idx.headD 0 : ℚ) + 1⟩

/-- A length-3 concentration-scaling tensor (mismatching 2 trials). -/
def tt3 : Tensor ℚ := ⟨[3], fun _ => 1⟩

/-!
Lemmas about the NPE_B importance-weighting routine.
-/

namespace NPEBState

variable {Θ X : Type}

/-- Binding an `ok` value in `Except` just applies the continuation. -/
lemma except_bind_ok {α β : Type} (a : α) (k : α → Except SbiError β) :
    (Except.ok a >>= k) = k a := rfl

/-- Binding an error in `Except` propagates the error. -/
lemma except_bind_error {α β : Type} (e : SbiError) (k : α → Except SbiError β) :
    ((Except.error e : Except SbiError α) >>= k) = .error e := rfl

/-- A finite `FQ` value is the `fin` of its rational part. -/
lemma eq_fin_toQ {v : FQ} (hv : v.isFinite) : v = .fin v.toQ := by
  cases v <;> simp_all [FQ.isFinite, FQ.toQ]

/-- The finiteness assertion succeeds on a batch of finite evaluations. -/
lemma assertAllFinite_ok (msg : String) (h : Θ → FQ) (theta : List Θ)
    (hf : ∀ t ∈ theta, (h t).isFinite) :
    assertAllFinite (theta.map h) msg = .ok () := by
  unfold assertAllFinite
  rw [if_pos]
  simpa [List.all_eq_true] using hf

/-- The finiteness assertion raises on a batch with a non-finite evaluation. -/
lemma assertAllFinite_error (msg : String) (h : Θ → FQ) (theta : List Θ)
    (hf : ¬ ∀ t ∈ theta, (h t).isFinite) :
    assertAllFinite (theta.map h) msg = .error (.numericalError msg) := by
  unfold assertAllFinite
  rw [if_neg]
  simpa [List.all_eq_true] using hf

/-- Elementwise form of adding one weighted, exponentiated batch of finite
log-densities to a finite accumulator. -/
lemma zipAdd_step (expF : ℚ → ℚ) (c : ℚ) (h : Θ → FQ) (g : Θ → ℚ)
    (theta : List Θ) (hf : ∀ t ∈ theta, (h t).isFinite) :
    List.zipWith FQ.add (theta.map fun t => FQ.fin (g t))
        ((theta.map h).map fun v => FQ.mul (.fin c) (v.fexp expF)) =
      theta.map fun t => FQ.fin (g t + c * expF (h t).toQ) := by
  induction theta with
  | nil => simp
  | cons t ts ih =>
    have ht : h t = .fin (h t).toQ := eq_fin_toQ (hf t (by simp))
    simp only [List.map_cons, List.zipWith_cons_cons]
    rw [ih fun u hu => hf u (by simp [hu])]
    rw [ht]
    simp [FQ.mul, FQ.fexp, FQ.add, FQ.toQ]

/-- One successful accumulation step of the proposal-mixture loop. -/
lemma mixStep_ok (expF : ℚ → ℚ) (c : ℚ) (theta : List Θ) (g : Θ → ℚ)
    (d : LogDensity Θ) (hf : ∀ t ∈ theta, (d.log_prob t).isFinite) :
    mixStep expF c theta (theta.map fun t => FQ.fin (g t)) d =
      .ok (theta.map fun t => FQ.fin (g t + c * expF (d.log_prob t).toQ)) := by
  unfold mixStep
  rw [assertAllFinite_ok _ _ _ hf, except_bind_ok]
  exact congrArg Except.ok (zipAdd_step expF c d.log_prob g theta hf)

/-- A failing accumulation step of the proposal-mixture loop. -/
lemma mixStep_error (expF : ℚ → ℚ) (c : ℚ) (theta : List Θ) (acc : List FQ)
    (d : LogDensity Θ) (hf : ¬ ∀ t ∈ theta, (d.log_prob t).isFinite) :
    mixStep expF c theta acc d = .error (.numericalError "proposal eval") := by
  unfold mixStep
  rw [assertAllFinite_error _ _ _ hf, except_bind_error]

/-- Closed form of the proposal-mixture fold over finite histories. -/
lemma foldlM_mixStep_ok (expF : ℚ → ℚ) (c : ℚ) (theta : List Θ)
    (ds : List (LogDensity Θ))
    (hf : ∀ d ∈ ds, ∀ t ∈ theta, (d.log_prob t).isFinite) (g : Θ → ℚ) :
    ds.foldlM (mixStep expF c theta) (theta.map fun t => FQ.fin (g t)) =
      .ok (theta.map fun t =>
        FQ.fin (g t + (ds.map fun d => c * expF (d.log_prob t).toQ).sum)) := by
  induction ds generalizing g with
  | nil => simp only [List.foldlM_nil, List.map_nil, List.sum_nil, add_zero]; rfl
  | cons d ds ih =>
    rw [List.foldlM_cons, mixStep_ok expF c theta g d (hf d (by simp)),
      except_bind_ok,
      ih (fun d' hd' => hf d' (by simp [hd'])) fun t => g t + c * expF (d.log_prob t).toQ]
    simp [add_assoc]

/-- The proposal-mixture fold raises on the first history entry with a
non-finite log-density, carrying the "proposal eval" context. -/
lemma foldlM_mixStep_error (expF : ℚ → ℚ) (c : ℚ) (theta : List Θ) :
    ∀ (ds : List (LogDensity Θ)) (acc : List FQ),
      (∃ d ∈ ds, ∃ t ∈ theta, ¬ (d.log_prob t).isFinite) →
      ds.foldlM (mixStep expF c theta) acc = .error (.numericalError "proposal eval")
  | [], _, hbad => by simp at hbad
  | d :: ds, acc, hbad => by
    by_cases hd : ∀ t ∈ theta, (d.log_prob t).isFinite
    · have hbad' : ∃ d' ∈ ds, ∃ t ∈ theta, ¬ (d'.log_prob t).isFinite := by
        obtain ⟨d', hd', t, ht, hbadt⟩ := hbad
        rcases List.mem_cons.mp hd' with h | h
        · exact absurd (hd t ht) (h ▸ hbadt)
        · exact ⟨d', h, t, ht, hbadt⟩
      rw [List.foldlM_cons]
      unfold mixStep
      rw [assertAllFinite_ok _ _ _ hd, except_bind_ok]
      exact foldlM_mixStep_error expF c theta ds _ hbad'
    · rw [List.foldlM_cons, mixStep_error expF c theta acc d hd, except_bind_error]

/-- The proposal-mixture loop computes exactly `mixtureDensity` per sample
when every history entry is finite on the batch. -/
lemma proposalMixture_ok (expF : ℚ → ℚ) (st : NPEBState Θ X) (theta : List Θ)
    (hf : ∀ d ∈ st.proposal_roundwise, ∀ t ∈ theta, (d.log_prob t).isFinite) :
    st.proposalMixture expF theta =
      .ok (theta.map fun t => FQ.fin (st.mixtureDensity expF t)) := by
  unfold proposalMixture mixtureDensity
  simpa using foldlM_mixStep_ok expF (1 / (st.round + 1)) theta
    st.proposal_roundwise hf fun _ => 0

/-- Elementwise division of the exponentiated priors by the mixture values. -/
lemma zipDiv_maps (expF : ℚ → ℚ) (lp : Θ → FQ) (m : Θ → ℚ) (theta : List Θ) :
    List.zipWith FQ.div ((theta.map lp).map (FQ.fexp expF))
        (theta.map fun t => FQ.fin (m t)) =
      theta.map fun t => FQ.div ((lp t).fexp expF) (.fin (m t)) := by
  induction theta with
  | nil => simp
  | cons t ts ih => simp [ih]

/-- Closed form of the importance-weight computation when every asserted
log-density is finite. -/
lemma importanceWeights_ok (expF : ℚ → ℚ) (st : NPEBState Θ X)
    (theta : List Θ) (hfin : st.allEvalsFinite theta) :
    st.importanceWeights expF theta =
      .ok (theta.map fun t =>
        FQ.div (.fin (expF (st.prior.log_prob t).toQ))
          (.fin (st.mixtureDensity expF t))) := by
  obtain ⟨hp, hd⟩ := hfin
  unfold importanceWeights
  rw [assertAllFinite_ok _ _ _ hp, except_bind_ok,
    proposalMixture_ok expF st theta hd, except_bind_ok]
  refine congrArg Except.ok ?_
  rw [zipDiv_maps]
  exact List.map_congr_left fun t ht => by rw [eq_fin_toQ (hp t ht)]; rfl

end NPEBState

namespace NPEBState

variable {Θ X : Type}

/-- Multiplying each summand by a constant factors out of a list sum. -/
lemma sum_map_mul_left_q {α : Type} (c : ℚ) (f : α → ℚ) (l : List α) :
    (l.map fun a => c * f a).sum = c * (l.map f).sum := by
  induction l with
  | nil => simp
  | cons a l ih => simp [ih, mul_add]

/-- Pairing the per-sample weights with the per-pair estimator values. -/
lemma zip_mul_net (f : Θ → FQ) (net : Θ → X → ℚ) :
    ∀ (theta : List Θ) (x : List X),
      List.zipWith (fun w nlp => FQ.mul w (.fin nlp)) (theta.map f)
          (List.zipWith net theta x) =
        List.zipWith (fun t xi => FQ.mul (f t) (.fin (net t xi))) theta x
  | [], _ => by simp
  | _ :: _, [] => by simp
  | t :: ts, xi :: xs => by
    simp only [List.map_cons, List.zipWith_cons_cons]
    rw [zip_mul_net f net ts xs]

end NPEBState

/-- Claim C1: with every prior and proposal log-density finite on the batch
(and a positive exponential with a non-empty proposal history, so that the
mixture denominator is nonzero), `_log_prob_proposal_posterior` returns the
per-sample tensor of length `batch_size` whose entries are
`exp(prior.log_prob θ) / mixtureDensity θ * net.log_prob (θ, x)`, where
`mixtureDensity` sums `1/(round+1) * exp(d.log_prob θ)` over the proposal
history; no reduction is applied. -/
theorem npeb_weighted_output_formula {Θ X : Type} (expF : ℚ → ℚ)
    (st : NPEBState Θ X) (theta : List Θ) (x : List X)
    (hfin : st.allEvalsFinite theta)
    (hexp : ∀ q, 0 < expF q)
    (hne : st.proposal_roundwise ≠ [])
    (hx : x.length = theta.length) :
    st.logProbProposalPosterior expF theta x =
      .ok (List.zipWith (fun t xi => FQ.fin
        (expF (st.prior.log_prob t).toQ / st.mixtureDensity expF t *
          st.netLogProb t xi)) theta x) ∧
    (List.zipWith (fun t xi => FQ.fin
        (expF (st.prior.log_prob t).toQ / st.mixtureDensity expF t *
          st.netLogProb t xi)) theta x).length = theta.length := by
  have hmix : ∀ t, st.mixtureDensity expF t ≠ 0 := by
    intro t
    refine ne_of_gt (List.sum_pos _ (fun q hq => ?_) (by simpa using hne))
    obtain ⟨d, hd, rfl⟩ := List.mem_map.mp hq
    exact mul_pos (by positivity) (hexp _)
  constructor
  · unfold NPEBState.logProbProposalPosterior
    rw [NPEBState.importanceWeights_ok expF st theta hfin,
      NPEBState.except_bind_ok]
    refine congrArg Except.ok ?_
    have hws : (theta.map fun t =>
        FQ.div (.fin (expF (st.prior.log_prob t).toQ))
          (.fin (st.mixtureDensity expF t))) =
        theta.map fun t =>
          FQ.fin (expF (st.prior.log_prob t).toQ / st.mixtureDensity expF t) := by
      refine List.map_congr_left fun t _ => ?_
      simp [FQ.div, hmix t]
    rw [hws, NPEBState.zip_mul_net]
    simp [FQ.mul]
  · rw [List.length_zipWith, hx, min_self]

/-- Claim C1 witness: the formula evaluated on a concrete one-sample batch at
round 0. -/
theorem npeb_weighted_output_formula_witness :
    stRound0.logProbProposalPosterior expOne [()] [()] =
      .ok (List.zipWith (fun t xi => FQ.fin
        (expOne (stRound0.prior.log_prob t).toQ /
          stRound0.mixtureDensity expOne t *
          stRound0.netLogProb t xi)) [()] [()]) ∧
    (List.zipWith (fun t xi => FQ.fin
        (expOne (stRound0.prior.log_prob t).toQ /
          stRound0.mixtureDensity expOne t *
          stRound0.netLogProb t xi)) [()] [()]).length = [()].length :=
  npeb_weighted_output_formula expOne stRound0 [()] [()]
    ⟨fun _ _ => rfl, by
      intro d hd t _
      simp only [stRound0] at hd
      simp at hd
      subst hd
      rfl⟩
    (fun _ => one_pos) (by simp [stRound0]) rfl

/-- Claim C2 (counterexample): at round 0 with an empty proposal history the
routine has no explicit degenerate-case handling; the accumulated mixture
stays at the `torch.zeros` initial value and the weight is `prior / 0`, a
positive infinity rather than 1. -/
theorem npeb_empty_history_weight_not_one :
    stEmptyHist.importanceWeights expOne [()] = .ok [FQ.pinf] ∧
      FQ.pinf ≠ FQ.fin 1 := by
  constructor
  · unfold NPEBState.importanceWeights NPEBState.proposalMixture
    simp [stEmptyHist, dFin0, assertAllFinite, FQ.isFinite, expOne, FQ.fexp,
      FQ.div, FQ.toQ]
  · simp

/-- Claim C2 (amended): at round 0 the proposal history holds exactly the
prior itself; the mixture coefficient `1/(round+1)` is then 1, the denominator
equals the prior density, and every importance weight is 1.  No explicit
degenerate branch exists in the code; the reduction to 1 is a consequence of
the mixture formula on the singleton history. -/
theorem npeb_round0_prior_history_weight_one {Θ X : Type} (expF : ℚ → ℚ)
    (st : NPEBState Θ X) (theta : List Θ)
    (hround : st.round = 0)
    (hhist : st.proposal_roundwise = [st.prior])
    (hfinp : ∀ t ∈ theta, (st.prior.log_prob t).isFinite)
    (hexp : ∀ q, 0 < expF q) :
    st.importanceWeights expF theta = .ok (theta.map fun _ => FQ.fin 1) := by
  have hfin : st.allEvalsFinite theta := by
    refine ⟨hfinp, fun d hd t ht => ?_⟩
    rw [hhist] at hd
    simp at hd
    subst hd
    exact hfinp t ht
  rw [NPEBState.importanceWeights_ok expF st theta hfin]
  refine congrArg Except.ok (List.map_congr_left fun t ht => ?_)
  have hmix : st.mixtureDensity expF t = expF (st.prior.log_prob t).toQ := by
    unfold NPEBState.mixtureDensity
    rw [hhist, hround]
    simp
  have hne : expF (st.prior.log_prob t).toQ ≠ 0 := ne_of_gt (hexp _)
  simp [FQ.div, hmix, hne, div_self hne]

/-- Claim C2 (amended) witness: the singleton-prior history at round 0 on a
concrete one-sample batch. -/
theorem npeb_round0_prior_history_weight_one_witness :
    stRound0.importanceWeights expOne [()] = .ok ([()].map fun _ => FQ.fin 1) :=
  npeb_round0_prior_history_weight_one expOne stRound0 [()] rfl rfl
    (fun _ _ => rfl) (fun _ => one_pos)

/-- Claim C3: whenever the prior or any proposal log-density is non-finite
somewhere on the batch, the routine raises a numerical error before returning
anything, with the context message naming the failing evaluation ("prior
eval" when the prior check fails, otherwise "proposal eval"). -/
theorem npeb_nonfinite_eval_raises {Θ X : Type} (expF : ℚ → ℚ)
    (st : NPEBState Θ X) (theta : List Θ) (x : List X)
    (hbad : ¬ st.allEvalsFinite theta) :
    st.logProbProposalPosterior expF theta x =
      .error (.numericalError
        (if ∀ t ∈ theta, (st.prior.log_prob t).isFinite then "proposal eval"
         else "prior eval")) := by
  by_cases hp : ∀ t ∈ theta, (st.prior.log_prob t).isFinite
  · rw [if_pos hp]
    have hbadp : ∃ d ∈ st.proposal_roundwise, ∃ t ∈ theta,
        ¬ (d.log_prob t).isFinite := by
      unfold NPEBState.allEvalsFinite at hbad
      push_neg at hbad
      obtain ⟨d, hd, t, ht, hbadt⟩ := hbad hp
      exact ⟨d, hd, t, ht, hbadt⟩
    have hpm : st.proposalMixture expF theta =
        .error (.numericalError "proposal eval") := by
      unfold NPEBState.proposalMixture
      exact NPEBState.foldlM_mixStep_error expF _ theta st.proposal_roundwise
        _ hbadp
    unfold NPEBState.logProbProposalPosterior NPEBState.importanceWeights
    rw [NPEBState.assertAllFinite_ok _ _ _ hp, NPEBState.except_bind_ok, hpm,
      NPEBState.except_bind_error, NPEBState.except_bind_error]
  · rw [if_neg hp]
    unfold NPEBState.logProbProposalPosterior NPEBState.importanceWeights
    rw [NPEBState.assertAllFinite_error _ _ _ hp, NPEBState.except_bind_error,
      NPEBState.except_bind_error]

/-- Claim C3 witness: a `nan` prior raises with "prior eval" context, and a
finite prior with a `nan` proposal raises with "proposal eval" context. -/
theorem npeb_nonfinite_eval_raises_witness :
    stBadPrior.logProbProposalPosterior expOne [()] [()] =
      .error (.numericalError "prior eval") ∧
    stBadProp.logProbProposalPosterior expOne [()] [()] =
      .error (.numericalError "proposal eval") := by
  constructor
  · have h := npeb_nonfinite_eval_raises expOne stBadPrior [()] [()]
      (by unfold NPEBState.allEvalsFinite; decide)
    rwa [if_neg (by decide)] at h
  · have h := npeb_nonfinite_eval_raises expOne stBadProp [()] [()]
      (by unfold NPEBState.allEvalsFinite; decide)
    rwa [if_pos (by decide)] at h

/-- Claim C4: over a proposal history of length `R` satisfying the trainer
invariant `round + 1 = R` (the history holds the prior plus one proposal per
completed round), the accumulated mixture density per sample equals the
unweighted average of the exponentiated log-densities of the `R` entries, and
the accumulated value is unchanged under any permutation of the history. -/
theorem npeb_mixture_uniform_average {Θ X : Type} (expF : ℚ → ℚ)
    (st : NPEBState Θ X) (theta : List Θ) (R : ℕ)
    (hfin : ∀ d ∈ st.proposal_roundwise, ∀ t ∈ theta, (d.log_prob t).isFinite)
    (hR : st.proposal_roundwise.length = R)
    (hround : st.round + 1 = R) :
    st.proposalMixture expF theta =
      .ok (theta.map fun t => FQ.fin
        ((st.proposal_roundwise.map fun d => expF (d.log_prob t).toQ).sum / R)) ∧
    ∀ ds, st.proposal_roundwise.Perm ds →
      NPEBState.proposalMixture expF { st with proposal_roundwise := ds } theta =
        st.proposalMixture expF theta := by
  constructor
  · rw [NPEBState.proposalMixture_ok expF st theta hfin]
    refine congrArg Except.ok (List.map_congr_left fun t ht => ?_)
    unfold NPEBState.mixtureDensity
    have hcast : ((st.round : ℚ) + 1) = (R : ℚ) := by
      rw [← hround]
      push_cast
      ring
    rw [NPEBState.sum_map_mul_left_q, hcast, one_div_mul_eq_div]
  · intro ds hperm
    have hfin' : ∀ d ∈ ds, ∀ t ∈ theta, (d.log_prob t).isFinite :=
      fun d hd t ht => hfin d (hperm.mem_iff.mpr hd) t ht
    rw [NPEBState.proposalMixture_ok expF st theta hfin,
      NPEBState.proposalMixture_ok expF _ theta hfin']
    refine congrArg Except.ok (List.map_congr_left fun t ht => ?_)
    unfold NPEBState.mixtureDensity
    exact congrArg FQ.fin ((hperm.map _).sum_eq.symm)

/-- Claim C4 witness: a round-1 state with two proposals; the accumulated
mixture is the two-entry average, unchanged when the history is swapped. -/
theorem npeb_mixture_uniform_average_witness :
    stTwoProps.proposalMixture expOne [()] =
      .ok ([()].map fun t => FQ.fin
        ((stTwoProps.proposal_roundwise.map
          fun d => expOne (d.log_prob t).toQ).sum / 2)) ∧
    NPEBState.proposalMixture expOne
        { stTwoProps with proposal_roundwise := [dFin2, dFin0] } [()] =
      stTwoProps.proposalMixture expOne [()] := by
  have h := npeb_mixture_uniform_average expOne stTwoProps [()] 2
    (by intro d hd t ht; simp [stTwoProps] at hd
        rcases hd with rfl | rfl <;> rfl)
    rfl rfl
  exact ⟨h.1, h.2 [dFin2, dFin0] (List.Perm.swap dFin2 dFin0 [])⟩

/-- Claim C5: when the proposal history is a single distribution whose
log-density coincides with the prior's on the batch and the trainer invariant
`history length = round + 1` holds (so the round index is 0), every
importance weight is exactly 1. -/
theorem npeb_single_identical_proposal_weight_one {Θ X : Type} (expF : ℚ → ℚ)
    (st : NPEBState Θ X) (theta : List Θ) (d : LogDensity Θ)
    (hhist : st.proposal_roundwise = [d])
    (heq : ∀ t ∈ theta, d.log_prob t = st.prior.log_prob t)
    (hlen : st.proposal_roundwise.length = st.round + 1)
    (hfinp : ∀ t ∈ theta, (st.prior.log_prob t).isFinite)
    (hexp : ∀ q, 0 < expF q) :
    st.importanceWeights expF theta = .ok (theta.map fun _ => FQ.fin 1) := by
  have hround : st.round = 0 := by
    rw [hhist] at hlen
    simpa using hlen.symm
  have hfin : st.allEvalsFinite theta := by
    refine ⟨hfinp, fun d' hd' t ht => ?_⟩
    rw [hhist] at hd'
    simp at hd'
    subst hd'
    rw [heq t ht]
    exact hfinp t ht
  rw [NPEBState.importanceWeights_ok expF st theta hfin]
  refine congrArg Except.ok (List.map_congr_left fun t ht => ?_)
  have hmix : st.mixtureDensity expF t = expF (st.prior.log_prob t).toQ := by
    unfold NPEBState.mixtureDensity
    rw [hhist, hround]
    simp [heq t ht]
  have hne : expF (st.prior.log_prob t).toQ ≠ 0 := ne_of_gt (hexp _)
  simp [FQ.div, hmix, hne, div_self hne]

/-- Claim C5 witness: a singleton history identical to the prior at round 0
on a concrete one-sample batch. -/
theorem npeb_single_identical_proposal_weight_one_witness :
    stRound0.importanceWeights expOne [()] = .ok ([()].map fun _ => FQ.fin 1) :=
  npeb_single_identical_proposal_weight_one expOne stRound0 [()] dFin0
    rfl (fun _ _ => rfl) rfl (fun _ _ => rfl) (fun _ => one_pos)

/-!
Lemmas about the tensor model and the Binomial/InverseGamma potential.
-/

/-- A broadcast index into a dimension of size `B` is the result index itself
whenever that index is in range (a size-1 dimension only ever reads index 0). -/
lemma if_one_idx {B b : ℕ} (hb : b < B) : (if B = 1 then 0 else b) = b := by
  split
  · omega
  · rfl

/-- Broadcasting a dimension of size `B` against a dimension of size 1 keeps
size `B`. -/
lemma ite_one_self (B : ℕ) : (if B = 1 then 1 else B) = B := by
  split <;> omega

/-- Reading entry `k` of a stacked list built over `List.range K`. -/
lemma getD_map_range {α : Type} (f : ℕ → α) (d : α) {k K : ℕ} (hk : k < K) :
    (((List.range K).map f).getD k d) = f k := by
  rw [List.getD_eq_getElem?_getD]
  simp [List.getElem?_map, List.getElem?_range hk]

/-- Row-major decoding of a linear offset in a two-dimensional shape. -/
lemma fromLin_pair {B D : ℕ} (i j : ℕ) (hj : j < D) :
    Tensor.fromLin [B, D] (i * D + j) = [i, j] := by
  have hD : 0 < D := by omega
  have h1 : (i * D + j) / D = i := by
    rw [add_comm, Nat.add_mul_div_right _ _ hD, Nat.div_eq_of_lt hj, zero_add]
  have h2 : (i * D + j) % D = j := by
    rw [add_comm, Nat.add_mul_mod_self_right, Nat.mod_eq_of_lt hj]
  simp [Tensor.fromLin, h1, h2, Nat.div_one]

/-- Float summation over a range of finite values is the `fin` of the exact
rational sum. -/
lemma foldl_fqadd_fin (f : ℕ → FQ) (n : ℕ) (hf : ∀ i < n, (f i).isFinite) :
    ((List.range n).map f).foldl FQ.add (.fin 0) =
      .fin (∑ i ∈ Finset.range n, (f i).toQ) := by
  induction n with
  | zero => simp
  | succ n ih =>
    rw [List.range_succ, List.map_append, List.foldl_append,
      ih fun i hi => hf i (by omega), Finset.sum_range_succ]
    have : f n = .fin (f n).toQ := NPEBState.eq_fin_toQ (hf n (by omega))
    rw [List.map_singleton, List.foldl_cons, List.foldl_nil, this]
    rfl

/-- Valid indices of a rank-2 shape. -/
lemma mem_allIdx_two {B T : ℕ} {idx : List ℕ} :
    idx ∈ Tensor.allIdx [B, T] ↔ ∃ b t, b < B ∧ t < T ∧ idx = [b, t] := by
  simp only [Tensor.allIdx, List.mem_flatMap, List.mem_map, List.mem_range]
  constructor
  · rintro ⟨b, hb, l, ⟨t, ht, m, hm, rfl⟩, rfl⟩
    simp at hm
    subst hm
    exact ⟨b, t, hb, ht, rfl⟩
  · rintro ⟨b, t, hb, ht, rfl⟩
    exact ⟨b, hb, [t], ⟨t, ht, [], by simp, rfl⟩, rfl⟩

/-- Filtering the singleton dimensions out of a `(B, T, 1)` shape with `B` and
`T` both different from 1. -/
lemma filter_ne_one_bt {B T : ℕ} (hB : B ≠ 1) (hT : T ≠ 1) :
    ([B, T, 1].filter fun d => d ≠ 1) = [B, T] := by
  simp [List.filter, hB, hT]

/-- Filtering the singleton dimensions out of a `(1, T, 1)` shape with `T`
different from 1. -/
lemma filter_ne_one_1t {T : ℕ} (hT : T ≠ 1) :
    ([1, T, 1].filter fun d => d ≠ 1) = [T] := by
  simp [List.filter, hT]

/-- Filtering the singleton dimensions out of the `(1, 1, 1)` shape. -/
lemma filter_ne_one_111 : ([1, 1, 1].filter fun d => d ≠ 1) = [] := by
  simp [List.filter]

namespace BinomialGammaPotential

/-- Shape of the reshaped parameter batch: `(batch_size, 1, parameter_dim)`. -/
lemma thetaR_shape (theta : Tensor ℚ) (B D : ℕ)
    (htheta : theta.shape = [B, D]) (hB : 0 < B) :
    (thetaR theta).shape = [B, 1, D] := by
  simp [thetaR, Tensor.reshape, Tensor.numel, htheta,
    Nat.mul_div_cancel_left _ hB]

/-- The reshape `theta.reshape(batch_size, 1, -1)` is index-transparent:
entry `(i, 0, j)` is entry `(i, j)` of the original batch. -/
lemma thetaR_eval (theta : Tensor ℚ) (B D : ℕ)
    (htheta : theta.shape = [B, D]) (hB : 0 < B) (i j : ℕ) (hj : j < D) :
    (thetaR theta).eval [i, 0, j] = theta.eval [i, j] := by
  have hX : theta.numel / B = D := by
    simp [Tensor.numel, htheta, Nat.mul_div_cancel_left _ hB]
  have htl : Tensor.toLin [B, 1, D] [i, 0, j] = i * D + j := by
    simp [Tensor.toLin]
  simp only [thetaR, Tensor.reshape, htheta, List.headD_cons, hX, htl,
    fromLin_pair i j hj]

/-- Shape of the stacked, transposed binomial log-probability tensor:
`(batch_size, num_trials, K)`. -/
lemma choicesTerm_shape (P : BinomialGammaPotential) (theta : Tensor ℚ)
    (B K T C : ℕ) (htheta : theta.shape = [B, K + 1]) (hx : P.x_o.shape = [T, C])
    (hB : 0 < B) (hK : 0 < K) :
    (choicesTerm P theta).shape = [B, T, K] := by
  have hth : (thetaR theta).shape = [B, 1, K + 1] :=
    thetaR_shape theta B (K + 1) htheta hB
  obtain ⟨K', rfl⟩ : ∃ K', K = K' + 1 := ⟨K - 1, by omega⟩
  simp only [choicesTerm, Tensor.transpose, Tensor.stack, Tensor.sliceLast,
    Tensor.selectLast, Tensor.zipWith, hth, hx]
  simp [List.range_succ_eq_map, Tensor.swapNth, bshapeR, hx]

/-- Entry `(b, t, k)` of the binomial tensor is the binomial log-pmf of
success probability `theta[b, 1+k]` at the observed outcome `x_o[t, 1+k]`. -/
lemma choicesTerm_eval (P : BinomialGammaPotential) (theta : Tensor ℚ)
    (B K T C : ℕ) (htheta : theta.shape = [B, K + 1]) (hx : P.x_o.shape = [T, C])
    (hB : 0 < B) (hK : 0 < K) (b t k : ℕ) (hb : b < B) (ht : t < T)
    (hk : k < K) :
    (choicesTerm P theta).eval [b, t, k] =
      P.binomLP (theta.eval [b, k + 1]) (P.x_o.eval [t, k + 1]) := by
  have hth : (thetaR theta).shape = [B, 1, K + 1] :=
    thetaR_shape theta B (K + 1) htheta hB
  have hsw1 : Tensor.swapNth [b, t, k] 1 2 = [b, k, t] := by
    simp [Tensor.swapNth]
  have hsw2 : Tensor.swapNth [b, k, t] 0 1 = [k, b, t] := by
    simp [Tensor.swapNth]
  simp only [choicesTerm, Tensor.transpose, Tensor.stack, hsw1, hsw2]
  rw [getD_map_range _ _ (show k < ((thetaR theta).sliceLast 1
    ((thetaR theta).shape.getLastD 0 - 1)).shape.getLastD 0 by
      simp [Tensor.sliceLast, hth]; omega)]
  simp only [Tensor.zipWith, Tensor.sliceLast, Tensor.selectLast, hth, hx]
  simp only [List.dropLast_cons₂, List.dropLast_single, List.dropLast_nil]
  simp [bidxR, if_one_idx hb, if_one_idx ht, List.reverse_cons]
  rw [thetaR_eval theta B (K + 1) htheta hB b (k + 1) (by omega)]
  rw [Nat.add_comm 1 k]

/-- Shape of the inverse-gamma log-density tensor: `(batch_size, num_trials, 1)`. -/
lemma invGammaTerm_shape (P : BinomialGammaPotential) (theta : Tensor ℚ)
    (B K T C : ℕ) (htheta : theta.shape = [B, K + 1]) (hx : P.x_o.shape = [T, C])
    (hB : 0 < B)
    (hconc : (∃ c, P.concentration_scaling = .scalar c) ∨
      (∃ u, P.concentration_scaling = .tensor u ∧ u.shape = [1, T, 1])) :
    (invGammaTerm P theta).shape = [B, T, 1] := by
  have hth : (thetaR theta).shape = [B, 1, K + 1] :=
    thetaR_shape theta B (K + 1) htheta hB
  rcases hconc with ⟨c, hc⟩ | ⟨u, hc, hu⟩
  · simp only [invGammaTerm, hc, Tensor.zipWith, Tensor.map, Tensor.onesLike,
      Tensor.sliceLast, Tensor.reshape, hth, hx]
    simp [bshapeR, ite_one_self]
  · simp only [invGammaTerm, hc, Tensor.zipWith, Tensor.map, Tensor.onesLike,
      Tensor.sliceLast, Tensor.reshape, hth, hx, hu]
    simp [bshapeR, ite_one_self]

/-- Entry `(b, t, l)` of the inverse-gamma tensor: the log-density with the
trial-`t` concentration, rate `theta[b, 0]`, at the observed value `x_o[t, 0]`
(the trailing index is immaterial since every operand has a trailing
dimension of size 1). -/
lemma invGammaTerm_eval (P : BinomialGammaPotential) (theta : Tensor ℚ)
    (B K T C : ℕ) (htheta : theta.shape = [B, K + 1]) (hx : P.x_o.shape = [T, C])
    (hB : 0 < B)
    (hconc : (∃ c, P.concentration_scaling = .scalar c) ∨
      (∃ u, P.concentration_scaling = .tensor u ∧ u.shape = [1, T, 1]))
    (b t l : ℕ) (hb : b < B) (ht : t < T) :
    (invGammaTerm P theta).eval [b, t, l] =
      P.invGammaLP (P.concAt t) (theta.eval [b, 0]) (P.x_o.eval [t, 0]) := by
  have hth : (thetaR theta).shape = [B, 1, K + 1] :=
    thetaR_shape theta B (K + 1) htheta hB
  have hbeta : ∀ m : ℕ, (((thetaR theta).sliceLast 0 1).eval [m, 0, 0]) =
      theta.eval [m, 0] := by
    intro m
    simp only [Tensor.sliceLast]
    simpa using thetaR_eval theta B (K + 1) htheta hB m 0 (by omega)
  rcases hconc with ⟨c, hc⟩ | ⟨u, hc, hu⟩
  · simp only [invGammaTerm, hc, concAt, Tensor.zipWith, Tensor.map,
      Tensor.onesLike, Tensor.sliceLast, hth, hx]
    simp only [List.dropLast_cons₂, List.dropLast_single, List.dropLast_nil,
      List.reverse_cons, List.reverse_nil]
    simp [bidxR, bshapeR, if_one_idx hb, if_one_idx ht, ite_one_self]
    rw [show ((thetaR theta).eval [b, 0, 0]) = theta.eval [b, 0] by
      simpa using thetaR_eval theta B (K + 1) htheta hB b 0 (by omega)]
    simp [Tensor.reshape, Tensor.toLin, Tensor.fromLin, Nat.mod_one]
  · simp only [invGammaTerm, hc, concAt, Tensor.zipWith, Tensor.map,
      Tensor.onesLike, Tensor.sliceLast, hth, hx, hu]
    simp only [List.dropLast_cons₂, List.dropLast_single, List.dropLast_nil,
      List.reverse_cons, List.reverse_nil]
    simp [bidxR, bshapeR, if_one_idx hb, if_one_idx ht, ite_one_self]
    rw [show ((thetaR theta).eval [b, 0, 0]) = theta.eval [b, 0] by
      simpa using thetaR_eval theta B (K + 1) htheta hB b 0 (by omega)]
    simp [Tensor.reshape, Tensor.toLin, Tensor.fromLin, Nat.mod_one]

/-- Shape and entries of the pre-assertion joint log-likelihood when the
squeeze is harmless (more than one trial, or a single-sample batch): shape
`(batch_size, num_trials)` with entry `(b, t)` the float sum of the binomial
row-sum and the inverse-gamma term. -/
lemma jointLikelihood_shape_eval (P : BinomialGammaPotential) (theta : Tensor ℚ)
    (B K T C : ℕ) (htheta : theta.shape = [B, K + 1]) (hx : P.x_o.shape = [T, C])
    (hB : 0 < B) (hK : 0 < K) (hT : 0 < T)
    (hconc : (∃ c, P.concentration_scaling = .scalar c) ∨
      (∃ u, P.concentration_scaling = .tensor u ∧ u.shape = [1, T, 1]))
    (hOK : 2 ≤ T ∨ B = 1) :
    (jointLikelihood P theta).shape = [B, T] ∧
    ∀ b t, b < B → t < T → (jointLikelihood P theta).eval [b, t] =
      FQ.add ((choicesTerm P theta).sumLast.eval [b, t])
        (P.invGammaLP (P.concAt t) (theta.eval [b, 0]) (P.x_o.eval [t, 0])) := by
  have hcs : (choicesTerm P theta).sumLast.shape = [B, T] := by
    simp [Tensor.sumLast, choicesTerm_shape P theta B K T C htheta hx hB hK]
  have hig := invGammaTerm_shape P theta B K T C htheta hx hB hconc
  by_cases hB1 : B = 1
  · subst hB1
    by_cases hT1 : T = 1
    · subst hT1
      have hsq : (invGammaTerm P theta).squeeze.shape = [] := by
        simp only [Tensor.squeeze, hig]
        exact filter_ne_one_111
      constructor
      · simp [jointLikelihood, Tensor.zipWith, hcs, hsq, bshapeR]
      · intro b t hb ht
        have hb0 : b = 0 := by omega
        have ht0 : t = 0 := by omega
        subst hb0 ht0
        simp only [jointLikelihood, Tensor.zipWith, Tensor.squeeze, hcs, hsq,
          hig]
        simp [bidxR, Tensor.unsqueezeIdx,
          invGammaTerm_eval P theta 1 K 1 C htheta hx hB hconc 0 0 0
            (by omega) (by omega)]
    · have hsq : (invGammaTerm P theta).squeeze.shape = [T] := by
        simp only [Tensor.squeeze, hig]
        exact filter_ne_one_1t hT1
      constructor
      · simp [jointLikelihood, Tensor.zipWith, hcs, hsq, bshapeR, ite_self]
      · intro b t hb ht
        have hb0 : b = 0 := by omega
        subst hb0
        simp only [jointLikelihood, Tensor.zipWith, Tensor.squeeze, hcs, hsq,
          hig]
        simp [bidxR, Tensor.unsqueezeIdx, if_one_idx ht, hT1,
          invGammaTerm_eval P theta 1 K T C htheta hx hB hconc 0 t 0
            (by omega) ht]
  · have hT2 : 2 ≤ T := by
      rcases hOK with h | h
      · exact h
      · omega
    have hT1 : ¬ T = 1 := by omega
    have hsq : (invGammaTerm P theta).squeeze.shape = [B, T] := by
      simp only [Tensor.squeeze, hig]
      exact filter_ne_one_bt hB1 hT1
    constructor
    · simp [jointLikelihood, Tensor.zipWith, hcs, hsq, bshapeR, ite_self]
    · intro b t hb ht
      simp only [jointLikelihood, Tensor.zipWith, Tensor.squeeze, hcs, hsq,
        hig]
      simp [bidxR, Tensor.unsqueezeIdx, if_one_idx hb, if_one_idx ht, hB1,
        hT1,
        invGammaTerm_eval P theta B K T C htheta hx hB hconc b t 0 hb ht]

/-- Row sum over the K binomial components: the float fold equals the exact
rational sum when every component is finite. -/
lemma choices_sumLast_eval (P : BinomialGammaPotential) (theta : Tensor ℚ)
    (B K T C : ℕ) (htheta : theta.shape = [B, K + 1]) (hx : P.x_o.shape = [T, C])
    (hB : 0 < B) (hK : 0 < K) (b t : ℕ) (hb : b < B) (ht : t < T)
    (hbin : ∀ p v, (P.binomLP p v).isFinite) :
    (choicesTerm P theta).sumLast.eval [b, t] =
      .fin (∑ k ∈ Finset.range K,
        (P.binomLP (theta.eval [b, k + 1]) (P.x_o.eval [t, k + 1])).toQ) := by
  have hsh := choicesTerm_shape P theta B K T C htheta hx hB hK
  simp only [Tensor.sumLast, hsh]
  have hgl : ([B, T, K] : List ℕ).getLastD 0 = K := by simp
  rw [hgl]
  have hev : ∀ k, k < K → (choicesTerm P theta).eval ([b, t] ++ [k]) =
      P.binomLP (theta.eval [b, k + 1]) (P.x_o.eval [t, k + 1]) := fun k hk =>
    choicesTerm_eval P theta B K T C htheta hx hB hK b t k hb ht hk
  rw [foldl_fqadd_fin _ K (fun i hi => by rw [hev i hi]; exact hbin _ _)]
  exact congrArg FQ.fin (Finset.sum_congr rfl fun k hk => by
    rw [hev k (Finset.mem_range.mp hk)])

/-- The joint per-(sample, trial) log-likelihood as an exact rational when
every primitive log-density is finite. -/
lemma jointLikelihood_eval_fin (P : BinomialGammaPotential) (theta : Tensor ℚ)
    (B K T C : ℕ) (htheta : theta.shape = [B, K + 1]) (hx : P.x_o.shape = [T, C])
    (hB : 0 < B) (hK : 0 < K) (hT : 0 < T)
    (hconc : (∃ c, P.concentration_scaling = .scalar c) ∨
      (∃ u, P.concentration_scaling = .tensor u ∧ u.shape = [1, T, 1]))
    (hOK : 2 ≤ T ∨ B = 1)
    (hbin : ∀ p v, (P.binomLP p v).isFinite)
    (hig : ∀ a r x, (P.invGammaLP a r x).isFinite)
    (b t : ℕ) (hb : b < B) (ht : t < T) :
    (jointLikelihood P theta).eval [b, t] =
      .fin ((∑ k ∈ Finset.range K,
          (P.binomLP (theta.eval [b, k + 1]) (P.x_o.eval [t, k + 1])).toQ) +
        (P.invGammaLP (P.concAt t) (theta.eval [b, 0]) (P.x_o.eval [t, 0])).toQ) := by
  rw [(jointLikelihood_shape_eval P theta B K T C htheta hx hB hK hT hconc
    hOK).2 b t hb ht,
    choices_sumLast_eval P theta B K T C htheta hx hB hK b t hb ht hbin,
    NPEBState.eq_fin_toQ (hig (P.concAt t) (theta.eval [b, 0]) (P.x_o.eval [t, 0]))]
  rfl

end BinomialGammaPotential

/-- Claim C6 (amended): for a parameter batch of shape `(B, 1+K)` over a
dataset of `T` trials, provided the single-trial squeeze defect does not
trigger (`T ≥ 2` or `B = 1`) and every primitive log-density is finite,
`iid_likelihood` stacks the K binomial log-probabilities into a
`(B, T, K)` tensor, adds the inverse-gamma term with rate `theta[b, 0]` at
observation column 0, sums over K, then over trials, and returns one scalar
per sample: entry `b` is
`Σ_t (Σ_k binomLP(theta[b, 1+k], x_o[t, 1+k]) + igLP(conc_t, theta[b, 0],
x_o[t, 0]))`. -/
theorem tutorial_iid_likelihood_formula (P : BinomialGammaPotential)
    (theta : Tensor ℚ) (B K T C : ℕ)
    (htheta : theta.shape = [B, K + 1]) (hx : P.x_o.shape = [T, C])
    (hB : 0 < B) (hK : 0 < K) (hT : 0 < T)
    (hconc : (∃ c, P.concentration_scaling = .scalar c) ∨
      (∃ u, P.concentration_scaling = .tensor u ∧ u.shape = [1, T, 1]))
    (hOK : 2 ≤ T ∨ B = 1)
    (hbin : ∀ p v, (P.binomLP p v).isFinite)
    (hig : ∀ a r x, (P.invGammaLP a r x).isFinite) :
    (BinomialGammaPotential.choicesTerm P theta).shape = [B, T, K] ∧
    BinomialGammaPotential.iid_likelihood P theta =
      .ok (BinomialGammaPotential.jointLikelihood P theta).sumLast ∧
    (BinomialGammaPotential.jointLikelihood P theta).sumLast.shape = [B] ∧
    ∀ b, b < B →
      (BinomialGammaPotential.jointLikelihood P theta).sumLast.eval [b] =
        .fin (∑ t ∈ Finset.range T,
          ((∑ k ∈ Finset.range K,
            (P.binomLP (theta.eval [b, k + 1]) (P.x_o.eval [t, k + 1])).toQ) +
          (P.invGammaLP (P.concAt t) (theta.eval [b, 0])
            (P.x_o.eval [t, 0])).toQ)) := by
  have hjs := BinomialGammaPotential.jointLikelihood_shape_eval P theta B K T C
    htheta hx hB hK hT hconc hOK
  have hjf := fun b t (hb : b < B) (ht : t < T) =>
    BinomialGammaPotential.jointLikelihood_eval_fin P theta B K T C htheta hx
      hB hK hT hconc hOK hbin hig b t hb ht
  refine ⟨BinomialGammaPotential.choicesTerm_shape P theta B K T C htheta hx
    hB hK, ?_, ?_, ?_⟩
  · unfold BinomialGammaPotential.iid_likelihood
    have hfinall : (BinomialGammaPotential.jointLikelihood P theta).allFinite
        = true := by
      unfold Tensor.allFinite
      rw [hjs.1, List.all_eq_true]
      intro idx hidx
      obtain ⟨b, t, hb, ht, rfl⟩ := mem_allIdx_two.mp hidx
      rw [hjf b t hb ht]
      rfl
    rw [if_pos (by rw [hjs.1, htheta, hx]; rfl), if_pos hfinall]
  · simp [Tensor.sumLast, hjs.1]
  · intro b hb
    simp only [Tensor.sumLast, hjs.1]
    have hgl : ([B, T] : List ℕ).getLastD 0 = T := by simp
    rw [hgl,
      foldl_fqadd_fin _ T (fun t ht => by
        rw [List.cons_append, List.nil_append, hjf b t hb ht]
        rfl)]
    exact congrArg FQ.fin (Finset.sum_congr rfl fun t ht => by
      rw [List.cons_append, List.nil_append,
        hjf b t hb (Finset.mem_range.mp ht)]
      rfl)

/-- Claim C6 (counterexample): over a single-trial dataset with a two-sample
batch the claimed per-sample return never happens; `iid_likelihood` raises the
shape assertion instead (see the squeeze defect of claim C10). -/
theorem tutorial_iid_single_trial_raises :
    BinomialGammaPotential.iid_likelihood PW10 thetaB2 = .error .shapeError := by
  unfold BinomialGammaPotential.iid_likelihood
  rw [if_neg (by decide)]

/-- Claim C6 witness: the formula on a concrete 2-sample, 2-trial, K = 1
instance, with the last conjunct instantiated at both samples. -/
theorem tutorial_iid_likelihood_formula_witness :
    (BinomialGammaPotential.choicesTerm PW6 thetaB2).shape = [2, 2, 1] ∧
    BinomialGammaPotential.iid_likelihood PW6 thetaB2 =
      .ok (BinomialGammaPotential.jointLikelihood PW6 thetaB2).sumLast ∧
    (BinomialGammaPotential.jointLikelihood PW6 thetaB2).sumLast.shape = [2] ∧
    (BinomialGammaPotential.jointLikelihood PW6 thetaB2).sumLast.eval [0] =
      .fin (∑ t ∈ Finset.range 2,
        ((∑ k ∈ Finset.range 1,
          (PW6.binomLP (thetaB2.eval [0, k + 1]) (PW6.x_o.eval [t, k + 1])).toQ) +
        (PW6.invGammaLP (PW6.concAt t) (thetaB2.eval [0, 0])
          (PW6.x_o.eval [t, 0])).toQ)) ∧
    (BinomialGammaPotential.jointLikelihood PW6 thetaB2).sumLast.eval [1] =
      .fin (∑ t ∈ Finset.range 2,
        ((∑ k ∈ Finset.range 1,
          (PW6.binomLP (thetaB2.eval [1, k + 1]) (PW6.x_o.eval [t, k + 1])).toQ) +
        (PW6.invGammaLP (PW6.concAt t) (thetaB2.eval [1, 0])
          (PW6.x_o.eval [t, 0])).toQ)) := by
  have h := tutorial_iid_likelihood_formula PW6 thetaB2 2 1 2 2 rfl rfl
    (by omega) (by omega) (by omega) (.inl ⟨1, rfl⟩) (.inl (by omega))
    (fun _ _ => rfl) (fun _ _ _ => rfl)
  exact ⟨h.1, h.2.1, h.2.2.1, h.2.2.2 0 (by omega), h.2.2.2 1 (by omega)⟩

/-- Claim C7: a tensor-valued `concentration_scaling` whose length differs
from the number of observed trials makes construction raise the shape
assertion before any evaluation; a matching one is stored reshaped to the
`(1, num_trials, 1)` broadcast layout. -/
theorem tutorial_conc_scaling_validation (pLP : List ℚ → FQ) (x_o : Tensor ℚ)
    (tt : Tensor ℚ) (bLP : ℚ → ℚ → FQ) (igLP : ℚ → ℚ → ℚ → FQ)
    (n T C : ℕ) (hx : x_o.shape = [T, C]) (htt : tt.shape = [n]) (hT : 0 < T) :
    (n ≠ T → mkBinomialGammaPotential pLP x_o (.tensor tt) bLP igLP =
      .error .shapeError) ∧
    (n = T → mkBinomialGammaPotential pLP x_o (.tensor tt) bLP igLP =
      .ok ⟨pLP, x_o, .tensor (tt.reshape [1, T, 1]), bLP, igLP⟩) := by
  simp only [mkBinomialGammaPotential]
  have hh : tt.shape.headD 0 = n := by simp [htt]
  have hh2 : x_o.shape.headD 0 = T := by simp [hx]
  constructor
  · intro hnT
    rw [if_neg]
    rw [hh, hh2]
    exact hnT
  · intro hnT
    subst hnT
    rw [if_pos (by rw [hh, hh2])]
    simp [Tensor.numel, htt, hx, Nat.div_self hT]

/-- Claim C7 witness: a length-3 tensor against 2 trials raises; a length-2
tensor is accepted and stored as a `(1, 2, 1)` tensor. -/
theorem tutorial_conc_scaling_validation_witness :
    mkBinomialGammaPotential (fun _ => .fin 0) xo22 (.tensor tt3) binomFin
      igFin = .error .shapeError ∧
    mkBinomialGammaPotential (fun _ => .fin 0) xo22 (.tensor tt2) binomFin
      igFin =
      .ok ⟨fun _ => .fin 0, xo22, .tensor (tt2.reshape [1, 2, 1]), binomFin,
        igFin⟩ :=
  ⟨(tutorial_conc_scaling_validation _ xo22 tt3 _ _ 3 2 2 rfl rfl
      (by omega)).1 (by omega),
   (tutorial_conc_scaling_validation _ xo22 tt2 _ _ 2 2 2 rfl rfl
      (by omega)).2 rfl⟩

/-- Claim C8: `iid_likelihood` asserts, before summing over trials, that the
joint tensor has shape exactly `(batch_size, num_trials)` (raising the shape
error otherwise) and that it is everywhere finite (raising the numerical
error otherwise); any returned value passed both checks. -/
theorem tutorial_joint_assertions (P : BinomialGammaPotential)
    (theta : Tensor ℚ) :
    ((BinomialGammaPotential.jointLikelihood P theta).shape ≠
        [theta.shape.headD 0, P.x_o.shape.headD 0] →
      BinomialGammaPotential.iid_likelihood P theta = .error .shapeError) ∧
    ((BinomialGammaPotential.jointLikelihood P theta).shape =
        [theta.shape.headD 0, P.x_o.shape.headD 0] →
      (BinomialGammaPotential.jointLikelihood P theta).allFinite = false →
      BinomialGammaPotential.iid_likelihood P theta =
        .error (.numericalError "Joint likelihood contains infs or nans")) ∧
    ∀ l, BinomialGammaPotential.iid_likelihood P theta = .ok l →
      (BinomialGammaPotential.jointLikelihood P theta).shape =
        [theta.shape.headD 0, P.x_o.shape.headD 0] ∧
      (BinomialGammaPotential.jointLikelihood P theta).allFinite = true := by
  unfold BinomialGammaPotential.iid_likelihood
  refine ⟨fun h => by rw [if_neg h],
    fun h hf => by rw [if_pos h, if_neg (by simp [hf])], ?_⟩
  intro l hl
  split_ifs at hl with h1 h2
  exact ⟨h1, h2⟩

/-- Claim C8 witness: a `nan`-valued binomial primitive passes the shape
check and trips the finiteness assertion. -/
theorem tutorial_joint_assertions_witness :
    BinomialGammaPotential.iid_likelihood PW8 thetaB2 =
      .error (.numericalError "Joint likelihood contains infs or nans") :=
  (tutorial_joint_assertions PW8 thetaB2).2.1 (by decide) (by decide)

/-- Claim C9: the `track_gradients` flag of `__call__` only selects whether a
gradient graph is retained; the returned value is identical either way. -/
theorem tutorial_track_gradients_value_invariant (P : BinomialGammaPotential)
    (theta : Tensor ℚ) :
    (BinomialGammaPotential.call P theta false).value =
      (BinomialGammaPotential.call P theta true).value ∧
    ∀ b, (BinomialGammaPotential.call P theta b).gradGraphRetained = b :=
  ⟨rfl, fun _ => rfl⟩

/-- Claim C10: with a single observed trial and a batch of at least two
samples, the unconditional squeeze collapses the inverse-gamma term to shape
`(batch_size,)`, the broadcast addition yields `(batch_size, batch_size)`,
and the shape assertion raises even though the inputs satisfy the documented
contract. -/
theorem tutorial_single_trial_squeeze_defect (P : BinomialGammaPotential)
    (theta : Tensor ℚ) (B K C : ℕ)
    (htheta : theta.shape = [B, K + 1]) (hx : P.x_o.shape = [1, C])
    (hconc : (∃ c, P.concentration_scaling = .scalar c) ∨
      (∃ u, P.concentration_scaling = .tensor u ∧ u.shape = [1, 1, 1]))
    (hB : 2 ≤ B) (hK : 0 < K) :
    (BinomialGammaPotential.invGammaTerm P theta).squeeze.shape = [B] ∧
    (BinomialGammaPotential.jointLikelihood P theta).shape = [B, B] ∧
    BinomialGammaPotential.iid_likelihood P theta = .error .shapeError := by
  have hig := BinomialGammaPotential.invGammaTerm_shape P theta B K 1 C htheta
    hx (by omega) hconc
  have hB1 : ¬ B = 1 := by omega
  have hsq : (BinomialGammaPotential.invGammaTerm P theta).squeeze.shape
      = [B] := by
    simp only [Tensor.squeeze, hig]
    simp [List.filter, hB1]
  have hcs : (BinomialGammaPotential.choicesTerm P theta).sumLast.shape
      = [B, 1] := by
    simp [Tensor.sumLast,
      BinomialGammaPotential.choicesTerm_shape P theta B K 1 C htheta hx
        (by omega) hK]
  have hjs : (BinomialGammaPotential.jointLikelihood P theta).shape
      = [B, B] := by
    simp only [BinomialGammaPotential.jointLikelihood, Tensor.zipWith, hcs,
      hsq]
    simp [bshapeR]
  refine ⟨hsq, hjs, ?_⟩
  unfold BinomialGammaPotential.iid_likelihood
  rw [if_neg (by rw [hjs, htheta, hx]; simp [hB1])]

/-- Claim C10 witness: the defect on a concrete 2-sample batch over a
single-trial dataset. -/
theorem tutorial_single_trial_squeeze_defect_witness :
    (BinomialGammaPotential.invGammaTerm PW10 thetaB2).squeeze.shape = [2] ∧
    (BinomialGammaPotential.jointLikelihood PW10 thetaB2).shape = [2, 2] ∧
    BinomialGammaPotential.iid_likelihood PW10 thetaB2 = .error .shapeError :=
  tutorial_single_trial_squeeze_defect PW10 thetaB2 2 1 2 rfl rfl
    (.inl ⟨1, rfl⟩) (by omega) (by omega)
